import Mathlib

/-!
Verification of the control-flow- and expression-reconstruction core of the
c2rust transpiler crate.  The crate root (`src/c2rust-transpile/src/lib.rs`)
declares the public modules `renamer`, `convert_type`, `translator`, `c_ast`,
`rust_ast`, `cfg` and `with_stmts`; the bodies of those modules are not part
of the source tree under verification, so the Expression Sequencer
(`with_stmts`), the Graph Builder / Structurer (`cfg`) and the Function
Orchestrator (`translator`) are modelled from the specification, as noted on
each definition.  The crate root itself (module list and its test) is
embedded directly.
-/

namespace WithStmts

/-- Modelled from the spec: pure value expressions, the side-effect-free
half of an `ExprWithStmts` (spec section 3).  `tmp k` reads the temporary
introduced by the Sequencer for a reused expression value; `ne0 p` is the
boolean normalisation `p != 0` used when a truth value must be stored. -/
inductive PExpr where
  | lit (n : Int)
  | var (x : Nat)
  | tmp (k : Nat)
  | ne0 (p : PExpr)
deriving DecidableEq, Repr

/-- Modelled from the spec: the side-effecting pre-statements a C expression
lowers to (spec section 4.2).  `callS k f` calls function `f` and stores its
result in temporary `k`; `iteS` is the conditional guard the Sequencer emits
around a short-circuited operand's side effects. -/
inductive Stmt where
  | skipS
  | callS (dst : Nat) (f : Nat)
  | assignV (x : Nat) (v : PExpr)
  | assignT (k : Nat) (v : PExpr)
  | seqS (a b : Stmt)
  | iteS (c : PExpr) (thn els : Stmt)
deriving DecidableEq, Repr

/-- Modelled from the spec: `ExprWithStmts` — an ordered sequence of
side-effecting pre-statements, one pure value expression, and a flag marking
whether the value is side-effect-free (spec section 3). -/
structure ExprWithStmts where
  stmts : List Stmt
  val : PExpr
  isPure : Bool
deriving DecidableEq, Repr

/-- Modelled from the spec: the C expressions the Sequencer consumes
(assignment, function call with observable effect, comma, short-circuit
`&&`/`||`, ternary; spec sections 1 and 4.2). -/
inductive CExpr where
  | lit (n : Int)
  | var (x : Nat)
  | call (f : Nat)
  | assign (x : Nat) (e : CExpr)
  | comma (e1 e2 : CExpr)
  | land (e1 e2 : CExpr)
  | lor (e1 e2 : CExpr)
  | ternary (c t e : CExpr)
deriving DecidableEq, Repr

/-- Fold a pre-statement list into one statement (used to build the body of
an emitted conditional guard). -/
def stmtsToStmt (l : List Stmt) : Stmt :=
  l.foldr Stmt.seqS Stmt.skipS

/-- Modelled from the spec: the Expression Sequencer (spec section 4.2).
Left-to-right evaluation for comma and assignment; for `&&`/`||` the left
operand's side effects are unconditional and the right operand's side
effects are emitted guarded inside a conditional; for `?:` each branch's
side effects are confined to that branch.  `c` is the fresh-temporary
counter (the identifier renamer collaborator, abstracted to a counter). -/
def lower : CExpr → Nat → ExprWithStmts × Nat
  | .lit n, c => (⟨[], .lit n, true⟩, c)
  | .var x, c => (⟨[], .var x, true⟩, c)
  | .call f, c => (⟨[.callS c f], .tmp c, true⟩, c + 1)
  | .assign x e, c =>
      let (w, c') := lower e c
      (⟨w.stmts ++ [.assignV x w.val], .var x, true⟩, c')
  | .comma a b, c =>
      let (wa, c1) := lower a c
      let (wb, c2) := lower b c1
      (⟨wa.stmts ++ wb.stmts, wb.val, wb.isPure⟩, c2)
  | .land a b, c =>
      let (wa, c1) := lower a c
      let (wb, c2) := lower b c1
      (⟨wa.stmts ++
          [.iteS wa.val
            (.seqS (stmtsToStmt wb.stmts) (.assignT c2 (.ne0 wb.val)))
            (.assignT c2 (.lit 0))],
        .tmp c2, true⟩, c2 + 1)
  | .lor a b, c =>
      let (wa, c1) := lower a c
      let (wb, c2) := lower b c1
      (⟨wa.stmts ++
          [.iteS wa.val
            (.assignT c2 (.lit 1))
            (.seqS (stmtsToStmt wb.stmts) (.assignT c2 (.ne0 wb.val)))],
        .tmp c2, true⟩, c2 + 1)
  | .ternary q t e, c =>
      let (wq, c1) := lower q c
      let (wt, c2) := lower t c1
      let (we, c3) := lower e c2
      (⟨wq.stmts ++
          [.iteS wq.val
            (.seqS (stmtsToStmt wt.stmts) (.assignT c3 wt.val))
            (.seqS (stmtsToStmt we.stmts) (.assignT c3 we.val))],
        .tmp c3, true⟩, c3 + 1)

/-- Lower a C expression with the temporary counter starting at 0. -/
def lowerTop (e : CExpr) : ExprWithStmts :=
  (lower e 0).1

/-- Execution state for the lowered statements: program variables,
temporaries, and the trace of observable side effects (the identifiers of
the functions called, in call order). -/
structure St where
  vars : Nat → Int
  tmps : Nat → Int
  trace : List Nat

/-- Value of a pure expression; C truth is non-zero-ness. -/
def evalP (σ : St) : PExpr → Int
  | .lit n => n
  | .var x => σ.vars x
  | .tmp k => σ.tmps k
  | .ne0 p => if evalP σ p = 0 then 0 else 1

/-- Execute one lowered statement.  `ret f` is the value returned by a call
to `f` (the call's observable effect is recorded on the trace). -/
def exec (ret : Nat → Int) : Stmt → St → St
  | .skipS, σ => σ
  | .callS k f, σ =>
      ⟨σ.vars, fun j => if j = k then ret f else σ.tmps j, σ.trace ++ [f]⟩
  | .assignV x v, σ =>
      ⟨fun j => if j = x then evalP σ v else σ.vars j, σ.tmps, σ.trace⟩
  | .assignT k v, σ =>
      ⟨σ.vars, fun j => if j = k then evalP σ v else σ.tmps j, σ.trace⟩
  | .seqS a b, σ => exec ret b (exec ret a σ)
  | .iteS c t e, σ =>
      if evalP σ c = 0 then exec ret e σ else exec ret t σ

/-- Execute a pre-statement list in order. -/
def execs (ret : Nat → Int) (l : List Stmt) (σ : St) : St :=
  l.foldl (fun σ s => exec ret s σ) σ

/-- All function identifiers called anywhere inside a statement. -/
def callsS : Stmt → List Nat
  | .skipS => []
  | .callS _ f => [f]
  | .assignV _ _ => []
  | .assignT _ _ => []
  | .seqS a b => callsS a ++ callsS b
  | .iteS _ t e => callsS t ++ callsS e

end WithStmts

namespace WithStmts

/-- `a() && b()` with `a` named 0 and `b` named 1. -/
def andExample : CExpr := .land (.call 0) (.call 1)

/-- `x = (f(), g())` with `x` named 5, `f` named 0 and `g` named 1. -/
def commaExample : CExpr := .assign 5 (.comma (.call 0) (.call 1))

end WithStmts

/-- C1: for `a() && b()` the Sequencer emits `a()`'s side effect
unconditionally, followed by one conditional whose guarded branch contains
`b()`'s side effect and whose other branch contains no call; and in every
execution where `a()` returns false (zero), the observable trace is exactly
the single call to `a` — `b()`'s side effect never runs. -/
theorem C1_short_circuit_and (ret : Nat → Int) (vs ts : Nat → Int)
    (hfalse : ret 0 = 0) :
    (∃ c thn els,
      (WithStmts.lowerTop WithStmts.andExample).stmts =
        [WithStmts.Stmt.callS 0 0, WithStmts.Stmt.iteS c thn els] ∧
      1 ∈ WithStmts.callsS thn ∧ WithStmts.callsS els = []) ∧
    (WithStmts.execs ret (WithStmts.lowerTop WithStmts.andExample).stmts
      ⟨vs, ts, []⟩).trace = [0] := by
  constructor
  · exact ⟨_, _, _, rfl, by decide, rfl⟩
  · simp [WithStmts.lowerTop, WithStmts.andExample, WithStmts.lower,
      WithStmts.execs, WithStmts.exec, WithStmts.evalP, WithStmts.stmtsToStmt,
      hfalse]

/-- Witness for C1 at a concrete oracle and state. -/
theorem C1_short_circuit_and_witness :
    ((fun _ => (0 : Int)) 0 = 0) ∧
    (∃ c thn els,
      (WithStmts.lowerTop WithStmts.andExample).stmts =
        [WithStmts.Stmt.callS 0 0, WithStmts.Stmt.iteS c thn els] ∧
      1 ∈ WithStmts.callsS thn ∧ WithStmts.callsS els = []) ∧
    (WithStmts.execs (fun _ => 0)
      (WithStmts.lowerTop WithStmts.andExample).stmts
      ⟨fun _ => 0, fun _ => 0, []⟩).trace = [0] :=
  ⟨rfl, C1_short_circuit_and (fun _ => 0) (fun _ => 0) (fun _ => 0) rfl⟩

/-- C5: for `x = (f(), g())` the side effects occur in order `f()` then
`g()`, the value assigned to `x` (and the value of the whole expression)
equals `g()`'s result for every oracle, so `f()`'s result never contributes
to the final value. -/
theorem C5_comma_sequencing (ret : Nat → Int) (vs ts : Nat → Int) :
    (WithStmts.execs ret (WithStmts.lowerTop WithStmts.commaExample).stmts
        ⟨vs, ts, []⟩).trace = [0, 1] ∧
    (WithStmts.execs ret (WithStmts.lowerTop WithStmts.commaExample).stmts
        ⟨vs, ts, []⟩).vars 5 = ret 1 ∧
    WithStmts.evalP
      (WithStmts.execs ret (WithStmts.lowerTop WithStmts.commaExample).stmts
        ⟨vs, ts, []⟩)
      (WithStmts.lowerTop WithStmts.commaExample).val = ret 1 := by
  refine ⟨?_, ?_, ?_⟩ <;>
    simp [WithStmts.lowerTop, WithStmts.commaExample, WithStmts.lower,
      WithStmts.execs, WithStmts.exec, WithStmts.evalP]

namespace CrateRoot

/-- A module declaration at the crate root, with its visibility. -/
structure ModDecl where
  name : String
  isPublic : Bool
deriving DecidableEq, Repr

/-- The module declarations of `src/c2rust-transpile/src/lib.rs`, in source
order: `pub mod renamer; pub mod convert_type; pub mod translator;
pub mod c_ast; pub mod rust_ast; pub mod cfg; pub mod with_stmts;`. -/
def crateRootModules : List ModDecl :=
  [⟨"renamer", true⟩, ⟨"convert_type", true⟩, ⟨"translator", true⟩,
   ⟨"c_ast", true⟩, ⟨"rust_ast", true⟩, ⟨"cfg", true⟩, ⟨"with_stmts", true⟩]

/-- A module name is exposed publicly by the crate root. -/
def exposesPublic (n : String) : Bool :=
  crateRootModules.any fun m => m.name == n && m.isPublic

/-- One `#[test]` function of the crate root: its name and the list of
assertion checks its body performs.  A test passes when every check holds
(an empty body performs no checks and so cannot fail). -/
structure TestFn where
  name : String
  checks : List Bool
deriving DecidableEq, Repr

/-- The only test in `lib.rs`: `tests::it_works`, whose body is empty. -/
def it_works : TestFn := ⟨"it_works", []⟩

/-- The tests module of the crate root contains exactly `it_works`. -/
def crateTests : List TestFn := [it_works]

/-- A test passes iff all its checks hold. -/
def testPasses (t : TestFn) : Bool := t.checks.all id

end CrateRoot

/-- C9: the crate root exposes, as public modules, the pipeline components
`cfg`, `with_stmts` and `translator` and also the collaborator services
`renamer` and `convert_type`, all through the same public module list. -/
theorem C9_public_modules :
    CrateRoot.exposesPublic "cfg" = true ∧
    CrateRoot.exposesPublic "with_stmts" = true ∧
    CrateRoot.exposesPublic "translator" = true ∧
    CrateRoot.exposesPublic "renamer" = true ∧
    CrateRoot.exposesPublic "convert_type" = true := by
  decide

/-- C10: `tests::it_works` is the only test of the crate root, its body
performs no checks, and it passes unconditionally; hence it constrains no
behaviour of the pipeline (any assignment of outcomes to checks leaves it
passing, because there are none). -/
theorem C10_empty_test :
    CrateRoot.crateTests = [CrateRoot.it_works] ∧
    CrateRoot.it_works.checks = [] ∧
    CrateRoot.testPasses CrateRoot.it_works = true := by
  decide

namespace Cfg

/-- Modelled from the spec: a basic block's terminator (spec section 3):
Fallthrough, Goto, Branch, Switch (ordered case targets), Return,
Unreachable.  Condition and case-value payloads are abstracted away; only
the control-flow targets matter to the Structurer. -/
inductive Term where
  | fallthrough (next : Nat)
  | goto (next : Nat)
  | branch (t f : Nat)
  | switchT (targets : List Nat)
  | ret
  | unreachableT
deriving DecidableEq, Repr

/-- The successor targets of a terminator, in source order. -/
def Term.succs : Term → List Nat
  | .fallthrough n => [n]
  | .goto n => [n]
  | .branch t f => [t, f]
  | .switchT ts => ts
  | .ret => []
  | .unreachableT => []

/-- Modelled from the spec: a Control-Flow Graph — a mapping from block
identifier to block (here: to its terminator), plus one designated entry
block (spec section 3).  The mapping is carried as an association list;
block identifiers equal source appearance order. -/
structure Graph where
  entry : Nat
  blocks : List (Nat × Term)
deriving DecidableEq, Repr

/-- First-match lookup of a block by identifier. -/
def lookupB : List (Nat × Term) → Nat → Option Term
  | [], _ => none
  | (k, t) :: r, n => if k = n then some t else lookupB r n

/-- Successors of a block in a graph (none if the block is absent). -/
def succsOf (g : List (Nat × Term)) (n : Nat) : List Nat :=
  match lookupB g n with
  | none => []
  | some t => t.succs

/-- The block identifiers of a graph, in list order. -/
def keysOf (g : List (Nat × Term)) : List Nat := g.map Prod.fst

/-- A graph's key list mentions no identifier twice. -/
def NodupKeys (g : List (Nat × Term)) : Prop := (keysOf g).Nodup

/-- Canonical form of an identifier list: deduplicated and sorted
ascending (the tie-break order of spec section 4.3 step 5). -/
def canonNat (l : List Nat) : List Nat :=
  List.insertionSort (· ≤ ·) l.dedup

/-- Canonical form of a graph: one entry per identifier, ascending.  This
is the Structurer's deterministic view of the block mapping. -/
def canonG (g : List (Nat × Term)) : List (Nat × Term) :=
  (canonNat (keysOf g)).filterMap fun k => (lookupB g k).map fun t => (k, t)

/-- Every identifier a graph mentions (its keys and all edge targets). -/
def nodesOf (g : List (Nat × Term)) : List Nat :=
  canonNat (keysOf g ++ g.flatMap fun b => b.2.succs)

/-- One closure step of reachability-avoiding-stops: add the successors of
all current members, never crossing into a stop node. -/
def stepR (g : List (Nat × Term)) (stops s : List Nat) : List Nat :=
  canonNat (s ++ (s.flatMap (succsOf g)).filter fun n => ¬ n ∈ stops)

/-- Iterate the closure step to a fixpoint (the fuel is sufficient because
each non-fixed step strictly grows the set inside `nodesOf`). -/
def reachIter (g : List (Nat × Term)) (stops : List Nat) :
    Nat → List Nat → List Nat
  | 0, s => s
  | fuel + 1, s =>
      let s' := stepR g stops s
      if s' = s then s else reachIter g stops fuel s'

/-- The blocks reachable from `starts` along paths that never cross a stop
node; stop nodes themselves are excluded from the result.  Used for loop
detection, loop bodies/exits, and merge-point discovery. -/
def reachFrom (g : List (Nat × Term)) (stops starts : List Nat) : List Nat :=
  reachIter g stops ((nodesOf g).length + 1)
    (canonNat (starts.filter fun n => ¬ n ∈ stops))

/-- Modelled from the spec: the pending-action context the Structurer
threads while nesting regions.  Reaching a node mapped to `brkA l` emits a
break out of region `l`; `contA l` a continue of loop `l`; `endA` the end
of the current arm/branch (control falls to the enclosing merge); `dispA l
v` a transfer to arm `v` of MultiDispatch `l` from inside the dispatch
(assign the synthetic state variable, re-enter the dispatch loop);
`dispBrkA l v` the same transfer when leaving loop `l` for one of several
exits (assign, then break the loop the dispatch follows); `dispInitA l v`
the initial transfer from the code preceding the dispatch (assign, then
fall into the dispatch loop that follows in sequence). -/
inductive Action where
  | brkA (l : Nat)
  | contA (l : Nat)
  | endA
  | dispA (l : Nat) (v : Nat)
  | dispBrkA (l : Nat) (v : Nat)
  | dispInitA (l : Nat) (v : Nat)
deriving DecidableEq, Repr

/-- First-match (innermost-first) lookup of a pending action. -/
def lookupA : List (Nat × Action) → Nat → Option Action
  | [], _ => none
  | (k, a) :: r, n => if k = n then some a else lookupA r n

/-- The stop nodes of a context: every node some action is pending for. -/
def ctxStops (ctx : List (Nat × Action)) : List Nat := ctx.map Prod.fst

/-- Modelled from the spec: the Structured Region tree (spec section 3):
Sequence (as `empty`/`seq` chains), If, Loop, Switch, Break, Continue,
Return, Block, MultiDispatch.  Switch and MultiDispatch arms are chains of
`armR` nodes (one per (case/state value, body) pair); `assignState l v` is
the synthetic-state-variable assignment a MultiDispatch predecessor
performs before transferring control. -/
inductive Region where
  | empty
  | block (id : Nat)
  | seq (a b : Region)
  | ite (thn els : Region)
  | loop (label : Nat) (body : Region)
  | switchR (label : Nat) (arms : Region)
  | multiDispatch (label : Nat) (arms : Region)
  | armR (val : Nat) (body : Region)
  | brk (l : Nat)
  | cont (l : Nat)
  | retR
  | assignState (l : Nat) (v : Nat)
deriving DecidableEq, Repr

/-- The region a pending action stands for. -/
def emitAct : Action → Region
  | .brkA l => .brk l
  | .contA l => .cont l
  | .endA => .empty
  | .dispA l v => .seq (.assignState l v) (.cont l)
  | .dispBrkA l v => .seq (.assignState l v) (.brk l)
  | .dispInitA l v => .assignState l v

/-- Chain a list of (value, body) arms into an arm sequence. -/
def armsOf (l : List (Nat × Region)) : Region :=
  l.foldr (fun p acc => .seq (.armR p.1 p.2) acc) .empty

end Cfg

namespace Cfg

/-- One closure step of endpoint-inclusive reachability: stop nodes may be
reached (they stay in the set) but are never expanded. -/
def stepT (g : List (Nat × Term)) (stops s : List Nat) : List Nat :=
  canonNat (s ++ (s.filter fun n => ¬ n ∈ stops).flatMap (succsOf g))

/-- Iterate a monotone step to a fixpoint, with fuel. -/
def iterFix (f : List Nat → List Nat) : Nat → List Nat → List Nat
  | 0, s => s
  | fuel + 1, s =>
      let s' := f s
      if s' = s then s else iterFix f fuel s'

/-- Endpoint-inclusive reachability: every node reachable from `starts`
along paths that never continue out of a stop node (stop nodes may end a
path and are included).  Used for merge-point discovery. -/
def reachThru (g : List (Nat × Term)) (stops starts : List Nat) : List Nat :=
  iterFix (stepT g stops) ((nodesOf g).length + starts.length + 1)
    (canonNat starts)

/-- An edge `u → v` is a back edge when it closes a cycle: its source is
reachable back from its target.  The spec structures the acyclic remainder
(the graph with back edges removed), so merge-point discovery never walks
a back edge. -/
def backE (g : List (Nat × Term)) (u v : Nat) : Bool :=
  decide (u ∈ reachThru g [] [v])

/-- The forward (non-back-edge) successors of a node. -/
def succsF (g : List (Nat × Term)) (u : Nat) : List Nat :=
  (succsOf g u).filter fun v => ¬ backE g u v = true

/-- One closure step of merge reachability: follow only forward edges,
keep stop nodes as endpoints. -/
def stepM (g : List (Nat × Term)) (stops s : List Nat) : List Nat :=
  canonNat (s ++ (s.filter fun n => ¬ n ∈ stops).flatMap (succsF g))

/-- Endpoint-inclusive reachability along the acyclic remainder (back
edges removed): the reach used for merge-point discovery (spec section
4.3 step 3). -/
def reachM (g : List (Nat × Term)) (stops starts : List Nat) : List Nat :=
  iterFix (stepM g stops) ((nodesOf g).length + starts.length + 1)
    (canonNat starts)

/-- The nodes every member of `es` reaches on the acyclic remainder; the
joint downstream set of a family of exits or branch targets. -/
def commonOf (g : List (Nat × Term)) (stops es : List Nat) : List Nat :=
  match es with
  | [] => []
  | e :: r =>
      r.foldl (fun acc e' => acc.filter fun n => decide (n ∈ reachM g stops [e']))
        (reachM g stops [e])

/-- The members of `i` that reach every member of `i` on the acyclic
remainder: the earliest common merge candidates (spec section 4.3 step 3,
"common unique merge point"). -/
def minimalOf (g : List (Nat × Term)) (stops i : List Nat) : List Nat :=
  i.filter fun m => i.all fun n => decide (n ∈ reachM g stops [m])

/-- The nodes of the loop headed at `h`: reachable from `h` and reaching
`h` back, never crossing a stop (spec section 4.3 step 2). -/
def loopNodes (g : List (Nat × Term)) (stops : List Nat) (h : Nat) : List Nat :=
  (reachFrom g stops [h]).filter fun n => decide (h ∈ reachFrom g stops [n])

/-- The targets of edges leaving a node set. -/
def exitTargets (g : List (Nat × Term)) (l : List Nat) : List Nat :=
  canonNat ((l.flatMap (succsOf g)).filter fun n => ¬ n ∈ l)

/-- For a switch with case entries `ts`: the nodes reached by at least two
arms, each arm's reach cut at the other arms' entries (candidate after-
switch merge nodes). -/
def armOverlap (g : List (Nat × Term)) (stops ts : List Nat) : List Nat :=
  let rs := ts.map fun t => reachM g (stops ++ ts.erase t) [t]
  (canonNat (rs.flatMap id)).filter fun n =>
    ¬ n ∈ ts ∧ 2 ≤ rs.countP fun r => decide (n ∈ r)

/-- The context routing control transfers into the arms of MultiDispatch
`lbl`: reaching arm value `v` assigns the synthetic state variable and
falls into the dispatch loop that follows. -/
def dispCtx (lbl : Nat) (d : List Nat) (ctx : List (Nat × Action)) :
    List (Nat × Action) :=
  (d.map fun v => (v, Action.dispInitA lbl v)) ++ ctx

/-- Build a MultiDispatch region over arm values `d` (spec section 4.3
step 4): one arm per value, each arm's body structured with transfers to
the other arms routed through the synthetic state variable. -/
def mkDispatch (rec : Nat → List (Nat × Action) → Region) (lbl : Nat)
    (d : List Nat) (ctx : List (Nat × Action)) : Region :=
  .multiDispatch lbl (armsOf (d.map fun v =>
    (v, rec v (((d.filter fun v' => v' ≠ v).map fun v' =>
      (v', Action.dispA lbl v')) ++ ctx))))

/-- Modelled from the spec: structure one block's statements and
terminator (spec section 4.3 step 3), given `rec` to structure any
continuation node.  A branch becomes an If around the unique merge point
when one exists; a switch terminator becomes a Switch over the same case
ordering; when no unique merge exists the MultiDispatch fallback of step 4
is used. -/
def structTerm (g : List (Nat × Term))
    (rec : Nat → List (Nat × Action) → Region)
    (cur : Nat) (ctx : List (Nat × Action)) : Region :=
  match lookupB g cur with
  | none => .empty
  | some .ret => .seq (.block cur) .retR
  | some .unreachableT => .block cur
  | some (.fallthrough n) => .seq (.block cur) (rec n ctx)
  | some (.goto n) => .seq (.block cur) (rec n ctx)
  | some (.branch t f) =>
      let stops := ctxStops ctx
      let i := commonOf g stops [t, f]
      let m := minimalOf g stops i
      match m with
      | [m0] =>
          .seq (.block cur)
            (.seq (.ite (rec t ((m0, Action.endA) :: ctx))
                        (rec f ((m0, Action.endA) :: ctx)))
              (rec m0 ctx))
      | [] =>
          if i.isEmpty then
            .seq (.block cur) (.ite (rec t ctx) (rec f ctx))
          else
            .seq (.block cur)
              (.seq (.ite (rec t (dispCtx cur i ctx)) (rec f (dispCtx cur i ctx)))
                (mkDispatch rec cur i ctx))
      | _ =>
          .seq (.block cur)
            (.seq (.ite (rec t (dispCtx cur m ctx)) (rec f (dispCtx cur m ctx)))
              (mkDispatch rec cur m ctx))
  | some (.switchT ts) =>
      let stops := ctxStops ctx
      let x := armOverlap g stops ts
      let m := minimalOf g stops x
      match m with
      | [m0] =>
          .seq (.block cur)
            (.seq (.switchR cur (armsOf (ts.map fun t =>
                (t, rec t ((m0, Action.brkA cur) ::
                  ((ts.erase t).map fun u => (u, Action.endA)) ++ ctx)))))
              (rec m0 ctx))
      | [] =>
          if x.isEmpty then
            .seq (.block cur) (.switchR cur (armsOf (ts.map fun t =>
              (t, rec t (((ts.erase t).map fun u => (u, Action.endA)) ++ ctx)))))
          else
            .seq (.block cur)
              (.seq (.switchR cur (armsOf (ts.map fun t =>
                  (t, rec t (dispCtx cur x
                    (((ts.erase t).map fun u => (u, Action.endA)) ++ ctx))))))
                (mkDispatch rec cur x ctx))
      | _ =>
          .seq (.block cur)
            (.seq (.switchR cur (armsOf (ts.map fun t =>
                (t, rec t (dispCtx cur m
                  (((ts.erase t).map fun u => (u, Action.endA)) ++ ctx))))))
              (mkDispatch rec cur m ctx))

/-- Modelled from the spec: the Structurer's recursive descent (spec
section 4.3).  In checking mode (`false`) a node with a pending context
action emits that action, a node on a cycle avoiding all pending nodes is
a loop header and becomes a Loop (its exits translated to Break towards
the unique post-loop merge, or to a MultiDispatch when no unique merge
exists); body mode (`true`) structures the loop header's own block.  Fuel
decreases on every call; the driver supplies enough for any input. -/
def structFrom (g : List (Nat × Term)) :
    Nat → Bool → Nat → List (Nat × Action) → Region
  | 0, _, _, _ => .empty
  | fuel + 1, true, cur, ctx => structTerm g (structFrom g fuel false) cur ctx
  | fuel + 1, false, cur, ctx =>
    match lookupA ctx cur with
    | some a => emitAct a
    | none =>
      let stops := ctxStops ctx
      if decide (cur ∈ reachFrom g stops (succsOf g cur)) then
        let l := loopNodes g stops cur
        let e := exitTargets g l
        let i := commonOf g stops e
        let m := minimalOf g stops i
        match m with
        | [m0] =>
            Region.seq
              (Region.loop cur (structFrom g fuel true cur
                ((cur, Action.contA cur) :: (m0, Action.brkA cur) :: ctx)))
              (structFrom g fuel false m0 ctx)
        | _ =>
            if i.isEmpty then
              Region.loop cur
                (structFrom g fuel true cur ((cur, Action.contA cur) :: ctx))
            else
              Region.seq
                (Region.loop cur (structFrom g fuel true cur
                  ((cur, Action.contA cur) ::
                    (m.map fun v => (v, Action.dispBrkA cur v)) ++ ctx)))
                (mkDispatch (structFrom g fuel false) cur m ctx)
      else structTerm g (structFrom g fuel false) cur ctx

/-- Diagnostic severities of the core (spec section 7). -/
inductive Severity where
  | info
  | fatal
deriving DecidableEq, Repr

/-- A diagnostic: severity plus the block it concerns. -/
structure Diag where
  sev : Severity
  blockId : Nat
deriving DecidableEq, Repr

/-- Fuel ample for any graph (each structuring step either follows an edge
or nests; both are bounded by the block count). -/
def structFuel (g : List (Nat × Term)) : Nat := (g.length + 1) * (g.length + 1)

/-- The graph restricted to blocks reachable from the entry (spec:
unreachable blocks are pruned before structuring). -/
def prunedOf (c : Graph) : List (Nat × Term) :=
  (canonG c.blocks).filter fun b =>
    decide (b.1 ∈ reachThru (canonG c.blocks) [] [c.entry])

/-- The Region tree the Structurer produces for a graph. -/
def structuredOf (c : Graph) : Region :=
  structFrom (prunedOf c) (structFuel (prunedOf c)) false c.entry []

/-- One informational diagnostic per pruned (entry-unreachable) block. -/
def pruneDiags (c : Graph) : List Diag :=
  ((canonG c.blocks).filter fun b =>
    ¬ b.1 ∈ reachThru (canonG c.blocks) [] [c.entry]).map fun b =>
      ⟨.info, b.1⟩

/-- Modelled from the spec: the Structurer — prune unreachable blocks
(reporting each), then structure the remainder from the entry. -/
def structurer (c : Graph) : Region × List Diag :=
  (structuredOf c, pruneDiags c)

end Cfg

namespace Cfg

/-- A region is well scoped under a list of enclosing labels: every Break
and Continue names a label bound by a Loop, Switch or MultiDispatch on the
path from the root to that node. -/
def scopedB (ls : List Nat) : Region → Bool
  | .empty => true
  | .block _ => true
  | .seq a b => scopedB ls a && scopedB ls b
  | .ite t e => scopedB ls t && scopedB ls e
  | .loop l b => scopedB (l :: ls) b
  | .switchR l a => scopedB (l :: ls) a
  | .multiDispatch l a => scopedB (l :: ls) a
  | .armR _ b => scopedB ls b
  | .brk l => decide (l ∈ ls)
  | .cont l => decide (l ∈ ls)
  | .retR => true
  | .assignState _ _ => true

/-- The labels a pending action's emitted region jumps to. -/
def Action.labels : Action → List Nat
  | .brkA l => [l]
  | .contA l => [l]
  | .endA => []
  | .dispA l _ => [l]
  | .dispBrkA l _ => [l]
  | .dispInitA _ _ => []

/-- All labels the actions of a context may jump to. -/
def ctxLabels (ctx : List (Nat × Action)) : List Nat :=
  ctx.flatMap fun p => p.2.labels

theorem scopedB_mono (r : Region) : ∀ (ls ls' : List Nat),
    (∀ x, x ∈ ls → x ∈ ls') → scopedB ls r = true → scopedB ls' r = true := by
  induction r with
  | empty => intro ls ls' _ _; rfl
  | block _ => intro ls ls' _ _; rfl
  | seq a b iha ihb =>
      intro ls ls' h hs
      simp only [scopedB, Bool.and_eq_true] at hs ⊢
      exact ⟨iha _ _ h hs.1, ihb _ _ h hs.2⟩
  | ite t e iht ihe =>
      intro ls ls' h hs
      simp only [scopedB, Bool.and_eq_true] at hs ⊢
      exact ⟨iht _ _ h hs.1, ihe _ _ h hs.2⟩
  | loop l b ih =>
      intro ls ls' h hs
      refine ih _ _ ?_ hs
      intro x hx
      rcases List.mem_cons.1 hx with rfl | hx
      · exact List.mem_cons_self _ _
      · exact List.mem_cons_of_mem _ (h x hx)
  | switchR l a ih =>
      intro ls ls' h hs
      refine ih _ _ ?_ hs
      intro x hx
      rcases List.mem_cons.1 hx with rfl | hx
      · exact List.mem_cons_self _ _
      · exact List.mem_cons_of_mem _ (h x hx)
  | multiDispatch l a ih =>
      intro ls ls' h hs
      refine ih _ _ ?_ hs
      intro x hx
      rcases List.mem_cons.1 hx with rfl | hx
      · exact List.mem_cons_self _ _
      · exact List.mem_cons_of_mem _ (h x hx)
  | armR v b ih => intro ls ls' h hs; exact ih _ _ h hs
  | brk l =>
      intro ls ls' h hs
      simp only [scopedB, decide_eq_true_eq] at hs ⊢
      exact h _ hs
  | cont l =>
      intro ls ls' h hs
      simp only [scopedB, decide_eq_true_eq] at hs ⊢
      exact h _ hs
  | retR => intro ls ls' _ _; rfl
  | assignState _ _ => intro ls ls' _ _; rfl

theorem scopedB_armsOf (ls : List Nat) : ∀ (l : List (Nat × Region)),
    (∀ p ∈ l, scopedB ls p.2 = true) → scopedB ls (armsOf l) = true := by
  intro l
  induction l with
  | nil => intro _; rfl
  | cons p r ih =>
      intro h
      simp only [armsOf, List.foldr_cons, scopedB, Bool.and_eq_true]
      exact ⟨h p (List.mem_cons_self _ _),
        ih fun q hq => h q (List.mem_cons_of_mem _ hq)⟩

theorem labels_lookupA : ∀ (ctx : List (Nat × Action)) (n : Nat) (a : Action),
    lookupA ctx n = some a → ∀ x ∈ a.labels, x ∈ ctxLabels ctx := by
  intro ctx
  induction ctx with
  | nil => intro n a h; simp [lookupA] at h
  | cons p r ih =>
      intro n a h x hx
      simp only [lookupA] at h
      by_cases hk : p.1 = n
      · simp only [hk, if_pos rfl] at h
        cases h
        exact List.mem_flatMap.2 ⟨p, List.mem_cons_self _ _, hx⟩
      · rw [if_neg hk] at h
        have := ih n a h x hx
        simp only [ctxLabels, List.flatMap_cons] at this ⊢
        exact List.mem_append.2 (Or.inr (by simpa [ctxLabels] using this))

theorem scopedB_emitAct (ls : List Nat) (a : Action)
    (h : ∀ x ∈ a.labels, x ∈ ls) : scopedB ls (emitAct a) = true := by
  cases a with
  | brkA l => simp [emitAct, scopedB, Action.labels] at h ⊢; exact h
  | contA l => simp [emitAct, scopedB, Action.labels] at h ⊢; exact h
  | endA => rfl
  | dispA l v => simp [emitAct, scopedB, Action.labels] at h ⊢; exact h
  | dispBrkA l v => simp [emitAct, scopedB, Action.labels] at h ⊢; exact h
  | dispInitA l v => rfl

theorem ctxLabels_append (a b : List (Nat × Action)) :
    ctxLabels (a ++ b) = ctxLabels a ++ ctxLabels b := by
  simp [ctxLabels]

theorem ctxLabels_map_nil (f : Nat → Action) (hf : ∀ v, (f v).labels = []) :
    ∀ d : List Nat, ctxLabels (d.map fun v => (v, f v)) = [] := by
  intro d
  induction d with
  | nil => rfl
  | cons v r ih => simpa [ctxLabels, List.flatMap_cons, hf] using ih

theorem ctxLabels_map_const (f : Nat → Action) (lbl : Nat)
    (hf : ∀ v, (f v).labels = [lbl]) :
    ∀ (d : List Nat) (x : Nat),
      x ∈ ctxLabels (d.map fun v => (v, f v)) → x = lbl := by
  intro d
  induction d with
  | nil => intro x hx; simp [ctxLabels] at hx
  | cons v r ih =>
      intro x hx
      simp only [List.map_cons, ctxLabels, List.flatMap_cons, hf,
        List.mem_append, List.mem_singleton] at hx
      rcases hx with rfl | hx
      · rfl
      · exact ih x (by simpa [ctxLabels] using hx)

end Cfg

namespace Cfg

theorem ctxLabels_cons (p : Nat × Action) (ctx : List (Nat × Action)) :
    ctxLabels (p :: ctx) = p.2.labels ++ ctxLabels ctx := by
  simp [ctxLabels]

theorem scoped_mkDispatch (g : List (Nat × Term))
    (rec : Nat → List (Nat × Action) → Region)
    (lbl : Nat) (d : List Nat) (ctx : List (Nat × Action)) (ls : List Nat)
    (hrec : ∀ n ctx' ls', (∀ x, x ∈ ctxLabels ctx' → x ∈ ls') →
      scopedB ls' (rec n ctx') = true)
    (hctx : ∀ x, x ∈ ctxLabels ctx → x ∈ ls) :
    scopedB ls (mkDispatch rec lbl d ctx) = true := by
  simp only [mkDispatch, scopedB]
  apply scopedB_armsOf
  intro p hp
  rcases List.mem_map.1 hp with ⟨v, _, rfl⟩
  apply hrec
  intro x hx
  rw [ctxLabels_append] at hx
  rcases List.mem_append.1 hx with hx | hx
  · have hx' := ctxLabels_map_const (fun v' => Action.dispA lbl v') lbl
      (fun _ => rfl) _ x hx
    subst hx'
    exact List.mem_cons_self _ _
  · exact List.mem_cons_of_mem _ (hctx x hx)

end Cfg

namespace Cfg

theorem ctxLabels_mem_cases {p : Nat × Action} {rest : List (Nat × Action)}
    {x : Nat} (hx : x ∈ ctxLabels (p :: rest)) :
    x ∈ p.2.labels ∨ x ∈ ctxLabels rest := by
  rw [ctxLabels_cons] at hx
  exact List.mem_append.1 hx

set_option maxHeartbeats 1600000 in
theorem scoped_structTerm (g : List (Nat × Term))
    (rec : Nat → List (Nat × Action) → Region)
    (cur : Nat) (ctx : List (Nat × Action)) (ls : List Nat)
    (hrec : ∀ n ctx' ls', (∀ x, x ∈ ctxLabels ctx' → x ∈ ls') →
      scopedB ls' (rec n ctx') = true)
    (hctx : ∀ x, x ∈ ctxLabels ctx → x ∈ ls) :
    scopedB ls (structTerm g rec cur ctx) = true := by
  have hnilmap : ∀ (f : Nat → Action), (∀ v, (f v).labels = []) →
      ∀ (us : List Nat) (x : Nat),
        x ∈ ctxLabels (us.map fun u => (u, f u)) → False := by
    intro f hf us x hx
    rw [ctxLabels_map_nil f hf us] at hx
    simp at hx
  have hend : ∀ (m0 : Nat) (x : Nat),
      x ∈ ctxLabels ((m0, Action.endA) :: ctx) → x ∈ ls := by
    intro m0 x hx
    rw [ctxLabels_cons] at hx
    exact hctx x (by simpa [Action.labels] using hx)
  have hdisp : ∀ (lbl : Nat) (d : List Nat) (ctx2 : List (Nat × Action))
      (ls2 : List Nat), (∀ x, x ∈ ctxLabels ctx2 → x ∈ ls2) →
      ∀ x, x ∈ ctxLabels (dispCtx lbl d ctx2) → x ∈ ls2 := by
    intro lbl d ctx2 ls2 h2 x hx
    rw [dispCtx, ctxLabels_append] at hx
    rcases List.mem_append.1 hx with hx | hx
    · exact absurd hx (by
        intro hx'
        exact hnilmap (fun v => Action.dispInitA lbl v) (fun _ => rfl) d x hx')
    · exact h2 x hx
  have hends : ∀ (us : List Nat) (x : Nat),
      x ∈ ctxLabels ((us.map fun u => (u, Action.endA)) ++ ctx) → x ∈ ls := by
    intro us x hx
    rw [ctxLabels_append] at hx
    rcases List.mem_append.1 hx with hx | hx
    · exact absurd hx (by
        intro hx'
        exact hnilmap (fun _ => Action.endA) (fun _ => rfl) us x hx')
    · exact hctx x hx
  unfold structTerm
  split
  · rfl
  · rfl
  · rfl
  · simp only [scopedB, Bool.and_eq_true]
    exact ⟨trivial, hrec _ _ _ hctx⟩
  · simp only [scopedB, Bool.and_eq_true]
    exact ⟨trivial, hrec _ _ _ hctx⟩
  · simp only []
    split
    · simp only [scopedB, Bool.and_eq_true]
      exact ⟨trivial, ⟨hrec _ _ _ (hend _), hrec _ _ _ (hend _)⟩, hrec _ _ _ hctx⟩
    · split
      · simp only [scopedB, Bool.and_eq_true]
        exact ⟨trivial, hrec _ _ _ hctx, hrec _ _ _ hctx⟩
      · simp only [scopedB, Bool.and_eq_true]
        refine ⟨trivial, ⟨hrec _ _ _ (hdisp cur _ ctx ls hctx),
          hrec _ _ _ (hdisp cur _ ctx ls hctx)⟩, ?_⟩
        exact scoped_mkDispatch g rec cur _ ctx ls hrec hctx
    · simp only [scopedB, Bool.and_eq_true]
      refine ⟨trivial, ⟨hrec _ _ _ (hdisp cur _ ctx ls hctx),
        hrec _ _ _ (hdisp cur _ ctx ls hctx)⟩, ?_⟩
      exact scoped_mkDispatch g rec cur _ ctx ls hrec hctx
  · simp only []
    split
    · simp only [scopedB, Bool.and_eq_true]
      refine ⟨trivial, ?_, hrec _ _ _ hctx⟩
      apply scopedB_armsOf
      intro p hp
      rcases List.mem_map.1 hp with ⟨t, _, rfl⟩
      apply hrec
      intro x hx
      rcases ctxLabels_mem_cases hx with hx | hx
      · simp only [Action.labels, List.mem_singleton] at hx
        subst hx
        exact List.mem_cons_self _ _
      · exact List.mem_cons_of_mem _ (hends _ x hx)
    · split
      · simp only [scopedB, Bool.and_eq_true]
        refine ⟨trivial, ?_⟩
        apply scopedB_armsOf
        intro p hp
        rcases List.mem_map.1 hp with ⟨t, _, rfl⟩
        apply hrec
        intro x hx
        exact List.mem_cons_of_mem _ (hends _ x hx)
      · simp only [scopedB, Bool.and_eq_true]
        refine ⟨trivial, ?_, ?_⟩
        · apply scopedB_armsOf
          intro p hp
          rcases List.mem_map.1 hp with ⟨t, _, rfl⟩
          apply hrec
          intro x hx
          exact List.mem_cons_of_mem _
            (hdisp cur _ _ ls (hends _) x hx)
        · exact scoped_mkDispatch g rec cur _ ctx ls hrec hctx
    · simp only [scopedB, Bool.and_eq_true]
      refine ⟨trivial, ?_, ?_⟩
      · apply scopedB_armsOf
        intro p hp
        rcases List.mem_map.1 hp with ⟨t, _, rfl⟩
        apply hrec
        intro x hx
        exact List.mem_cons_of_mem _
          (hdisp cur _ _ ls (hends _) x hx)
      · exact scoped_mkDispatch g rec cur _ ctx ls hrec hctx

end Cfg

namespace Cfg

theorem ctxLabels_mem_append_cases {a b : List (Nat × Action)} {x : Nat}
    (hx : x ∈ ctxLabels (a ++ b)) : x ∈ ctxLabels a ∨ x ∈ ctxLabels b := by
  rw [ctxLabels_append] at hx
  exact List.mem_append.1 hx

theorem scopedB_seqI {ls : List Nat} {a b : Region} (ha : scopedB ls a = true)
    (hb : scopedB ls b = true) : scopedB ls (Region.seq a b) = true := by
  simp [scopedB, ha, hb]

set_option maxHeartbeats 1600000 in
theorem scoped_structFrom (g : List (Nat × Term)) : ∀ (fuel : Nat) (mode : Bool)
    (cur : Nat) (ctx : List (Nat × Action)) (ls : List Nat),
    (∀ x, x ∈ ctxLabels ctx → x ∈ ls) →
    scopedB ls (structFrom g fuel mode cur ctx) = true := by
  intro fuel
  induction fuel with
  | zero => intro mode cur ctx ls _; cases mode <;> rfl
  | succ fuel ih =>
      intro mode cur ctx ls hctx
      cases mode with
      | true =>
          exact scoped_structTerm g (structFrom g fuel false) cur ctx ls
            (fun n c l h => ih false n c l h) hctx
      | false =>
          simp only [structFrom]
          split
        
          · rename_i a ha
            exact scopedB_emitAct ls a
              (fun x hx => hctx x (labels_lookupA ctx cur a ha x hx))
          · split
            · split
              · simp only [scopedB, Bool.and_eq_true]
                constructor
                · apply ih
                  intro x hx
                  rcases ctxLabels_mem_cases hx with hx | hx
                  · simp only [Action.labels, List.mem_singleton] at hx
                    subst hx
                    exact List.mem_cons_self _ _
                  · rcases ctxLabels_mem_cases hx with hx | hx
                    · simp only [Action.labels, List.mem_singleton] at hx
                      subst hx
                      exact List.mem_cons_self _ _
                    · exact List.mem_cons_of_mem _ (hctx x hx)
                · exact ih false _ ctx ls hctx
              · split
                · show scopedB (cur :: ls) _ = true
                  apply ih
                  intro x hx
                  rcases ctxLabels_mem_cases hx with hx | hx
                  · simp only [Action.labels, List.mem_singleton] at hx
                    subst hx
                    exact List.mem_cons_self _ _
                  · exact List.mem_cons_of_mem _ (hctx x hx)
                · apply scopedB_seqI
                  · show scopedB (cur :: ls) _ = true
                    apply ih
                    intro x hx
                    rcases ctxLabels_mem_cases hx with hx | hx
                    · simp only [Action.labels, List.mem_singleton] at hx
                      subst hx
                      exact List.mem_cons_self _ _
                    · rcases ctxLabels_mem_append_cases hx with hx | hx
                      · have := ctxLabels_map_const
                          (fun v => Action.dispBrkA cur v) cur (fun _ => rfl) _ x hx
                        subst this
                        exact List.mem_cons_self _ _
                      · exact List.mem_cons_of_mem _ (hctx x hx)
                  · exact scoped_mkDispatch g (structFrom g fuel false) cur _ ctx ls
                      (fun n c l h => ih false n c l h) hctx
            · exact scoped_structTerm g (structFrom g fuel false) cur ctx ls
                (fun n c l h => ih false n c l h) hctx

end Cfg

/-- C3: for every control-flow graph, the Region tree the Structurer
produces is well scoped by construction: every Break and every Continue
names a Loop, Switch or MultiDispatch label bound by an enclosing region
on the path from the root to that node. -/
theorem C3_no_dangling_jumps (c : Cfg.Graph) :
    Cfg.scopedB [] (Cfg.structuredOf c) = true := by
  apply Cfg.scoped_structFrom
  intro x hx
  simp [Cfg.ctxLabels] at hx

namespace Cfg

/-- The block identifiers whose statements appear in a region. -/
def regionBlocks : Region → List Nat
  | .empty => []
  | .block i => [i]
  | .seq a b => regionBlocks a ++ regionBlocks b
  | .ite a b => regionBlocks a ++ regionBlocks b
  | .loop _ b => regionBlocks b
  | .switchR _ a => regionBlocks a
  | .multiDispatch _ a => regionBlocks a
  | .armR _ b => regionBlocks b
  | .brk _ => []
  | .cont _ => []
  | .retR => []
  | .assignState _ _ => []

theorem lookupB_mem : ∀ (g : List (Nat × Term)) (n : Nat) (t : Term),
    lookupB g n = some t → (n, t) ∈ g := by
  intro g
  induction g with
  | nil => intro n t h; simp [lookupB] at h
  | cons p r ih =>
      intro n t h
      simp only [lookupB] at h
      by_cases hk : p.1 = n
      · rw [if_pos hk] at h
        cases h
        subst hk
        exact List.mem_cons_self _ _
      · rw [if_neg hk] at h
        exact List.mem_cons_of_mem _ (ih n t h)

theorem mem_keys_of_lookupB {g : List (Nat × Term)} {n : Nat} {t : Term}
    (h : lookupB g n = some t) : n ∈ keysOf g := by
  have := lookupB_mem g n t h
  exact List.mem_map.2 ⟨(n, t), this, rfl⟩

theorem regionBlocks_emitAct (a : Action) : regionBlocks (emitAct a) = [] := by
  cases a <;> rfl

theorem regionBlocks_armsOf : ∀ (l : List (Nat × Region)) (x : Nat),
    x ∈ regionBlocks (armsOf l) → ∃ p ∈ l, x ∈ regionBlocks p.2 := by
  intro l
  induction l with
  | nil => intro x hx; simp [armsOf, regionBlocks] at hx
  | cons p r ih =>
      intro x hx
      simp only [armsOf, List.foldr_cons, regionBlocks, List.mem_append] at hx
      rcases hx with hx | hx
      · exact ⟨p, List.mem_cons_self _ _, hx⟩
      · rcases ih x hx with ⟨q, hq, hxq⟩
        exact ⟨q, List.mem_cons_of_mem _ hq, hxq⟩

theorem regionBlocks_mem_seq {x : Nat} {a b : Region}
    (hx : x ∈ regionBlocks (Region.seq a b)) :
    x ∈ regionBlocks a ∨ x ∈ regionBlocks b := List.mem_append.1 hx

theorem regionBlocks_mkDispatch (g : List (Nat × Term))
    (rec : Nat → List (Nat × Action) → Region)
    (lbl : Nat) (d : List Nat) (ctx : List (Nat × Action))
    (hrec : ∀ n ctx' x, x ∈ regionBlocks (rec n ctx') → x ∈ keysOf g) :
    ∀ x, x ∈ regionBlocks (mkDispatch rec lbl d ctx) → x ∈ keysOf g := by
  intro x hx
  simp only [mkDispatch, regionBlocks] at hx
  rcases regionBlocks_armsOf _ x hx with ⟨p, hp, hxp⟩
  rcases List.mem_map.1 hp with ⟨v, _, rfl⟩
  exact hrec _ _ x hxp

set_option maxHeartbeats 1600000 in
theorem regionBlocks_structTerm (g : List (Nat × Term))
    (rec : Nat → List (Nat × Action) → Region)
    (cur : Nat) (ctx : List (Nat × Action))
    (hrec : ∀ n ctx' x, x ∈ regionBlocks (rec n ctx') → x ∈ keysOf g) :
    ∀ x, x ∈ regionBlocks (structTerm g rec cur ctx) → x ∈ keysOf g := by
  intro x
  unfold structTerm
  split
  · intro hx; simp [regionBlocks] at hx
  · rename_i heq
    intro hx
    simp only [regionBlocks, List.mem_append, List.mem_singleton] at hx
    rcases hx with rfl | hx
    · exact mem_keys_of_lookupB heq
    · simp [regionBlocks] at hx
  · rename_i heq
    intro hx
    simp only [regionBlocks, List.mem_singleton] at hx
    subst hx
    exact mem_keys_of_lookupB heq
  · rename_i heq
    intro hx
    simp only [regionBlocks, List.mem_append, List.mem_singleton] at hx
    rcases hx with rfl | hx
    · exact mem_keys_of_lookupB heq
    · exact hrec _ _ x hx
  · rename_i heq
    intro hx
    simp only [regionBlocks, List.mem_append, List.mem_singleton] at hx
    rcases hx with rfl | hx
    · exact mem_keys_of_lookupB heq
    · exact hrec _ _ x hx
  · rename_i heq
    simp only []
    split
    · intro hx
      simp only [regionBlocks, List.mem_append, List.mem_singleton] at hx
      rcases hx with rfl | (hx | hx) | hx
      · exact mem_keys_of_lookupB heq
      · exact hrec _ _ x hx
      · exact hrec _ _ x hx
      · exact hrec _ _ x hx
    · split
      · intro hx
        simp only [regionBlocks, List.mem_append, List.mem_singleton] at hx
        rcases hx with rfl | hx | hx
        · exact mem_keys_of_lookupB heq
        · exact hrec _ _ x hx
        · exact hrec _ _ x hx
      · intro hx
        simp only [regionBlocks, List.mem_append, List.mem_singleton] at hx
        rcases hx with rfl | (hx | hx) | hx
        · exact mem_keys_of_lookupB heq
        · exact hrec _ _ x hx
        · exact hrec _ _ x hx
        · exact regionBlocks_mkDispatch g rec cur _ ctx hrec x hx
    · intro hx
      simp only [regionBlocks, List.mem_append, List.mem_singleton] at hx
      rcases hx with rfl | (hx | hx) | hx
      · exact mem_keys_of_lookupB heq
      · exact hrec _ _ x hx
      · exact hrec _ _ x hx
      · exact regionBlocks_mkDispatch g rec cur _ ctx hrec x hx
  · rename_i heq
    simp only []
    split
    · intro hx
      simp only [regionBlocks, List.mem_append, List.mem_singleton] at hx
      rcases hx with rfl | hx | hx
      · exact mem_keys_of_lookupB heq
      · rcases regionBlocks_armsOf _ x hx with ⟨p, hp, hxp⟩
        rcases List.mem_map.1 hp with ⟨t, _, rfl⟩
        exact hrec _ _ x hxp
      · exact hrec _ _ x hx
    · split
      · intro hx
        simp only [regionBlocks, List.mem_append, List.mem_singleton] at hx
        rcases hx with rfl | hx
        · exact mem_keys_of_lookupB heq
        · rcases regionBlocks_armsOf _ x hx with ⟨p, hp, hxp⟩
          rcases List.mem_map.1 hp with ⟨t, _, rfl⟩
          exact hrec _ _ x hxp
      · intro hx
        simp only [regionBlocks, List.mem_append, List.mem_singleton] at hx
        rcases hx with rfl | hx | hx
        · exact mem_keys_of_lookupB heq
        · rcases regionBlocks_armsOf _ x hx with ⟨p, hp, hxp⟩
          rcases List.mem_map.1 hp with ⟨t, _, rfl⟩
          exact hrec _ _ x hxp
        · exact regionBlocks_mkDispatch g rec cur _ ctx hrec x hx
    · intro hx
      simp only [regionBlocks, List.mem_append, List.mem_singleton] at hx
      rcases hx with rfl | hx | hx
      · exact mem_keys_of_lookupB heq
      · rcases regionBlocks_armsOf _ x hx with ⟨p, hp, hxp⟩
        rcases List.mem_map.1 hp with ⟨t, _, rfl⟩
        exact hrec _ _ x hxp
      · exact regionBlocks_mkDispatch g rec cur _ ctx hrec x hx

set_option maxHeartbeats 1600000 in
theorem regionBlocks_structFrom (g : List (Nat × Term)) :
    ∀ (fuel : Nat) (mode : Bool) (cur : Nat) (ctx : List (Nat × Action)) (x : Nat),
    x ∈ regionBlocks (structFrom g fuel mode cur ctx) → x ∈ keysOf g := by
  intro fuel
  induction fuel with
  | zero =>
      intro mode cur ctx x hx
      cases mode <;> simp [structFrom, regionBlocks] at hx
  | succ fuel ih =>
      intro mode cur ctx x hx
      cases mode with
      | true =>
          exact regionBlocks_structTerm g (structFrom g fuel false) cur ctx
            (fun n c y hy => ih false n c y hy) x hx
      | false =>
          revert hx
          simp only [structFrom]
          split
          · intro hx
            rw [regionBlocks_emitAct] at hx
            simp at hx
          · split
            · split
              · intro hx
                rcases regionBlocks_mem_seq hx with hx | hx
                · exact ih true cur _ x hx
                · exact ih false _ _ x hx
              · split
                · intro hx
                  exact ih true cur _ x hx
                · intro hx
                  rcases regionBlocks_mem_seq hx with hx | hx
                  · exact ih true cur _ x hx
                  · exact regionBlocks_mkDispatch g (structFrom g fuel false)
                      cur _ ctx (fun n c y hy => ih false n c y hy) x hx
            · intro hx
              exact regionBlocks_structTerm g (structFrom g fuel false) cur ctx
                (fun n c y hy => ih false n c y hy) x hx

end Cfg

namespace Cfg

theorem mem_canonNat {x : Nat} {l : List Nat} : x ∈ canonNat l ↔ x ∈ l := by
  unfold canonNat
  rw [(List.perm_insertionSort _ _).mem_iff, List.mem_dedup]

theorem nodup_canonNat (l : List Nat) : (canonNat l).Nodup :=
  ((List.perm_insertionSort _ _).nodup_iff).2 (List.nodup_dedup l)

theorem lookupB_eq_none : ∀ (g : List (Nat × Term)) (n : Nat),
    lookupB g n = none ↔ ¬ n ∈ keysOf g := by
  intro g
  induction g with
  | nil => intro n; simp [lookupB, keysOf]
  | cons p r ih =>
      intro n
      simp only [lookupB, keysOf, List.map_cons, List.mem_cons]
      by_cases hk : p.1 = n
      · simp [hk]
      · simp only [if_neg hk]
        rw [ih n]
        constructor
        · intro h hc
          rcases hc with hc | hc
          · exact hk hc.symm
          · exact h hc
        · intro h hc
          exact h (Or.inr hc)

theorem lookupB_exists_of_mem_keys {g : List (Nat × Term)} {n : Nat}
    (h : n ∈ keysOf g) : ∃ t, lookupB g n = some t := by
  cases hl : lookupB g n with
  | none => exact absurd h ((lookupB_eq_none g n).1 hl)
  | some t => exact ⟨t, rfl⟩

theorem lookupB_assemble (g : List (Nat × Term)) : ∀ (ks : List Nat),
    ks.Nodup → ∀ n,
    lookupB (ks.filterMap fun k => (lookupB g k).map fun t => (k, t)) n =
      if n ∈ ks then lookupB g n else none := by
  intro ks
  induction ks with
  | nil => intro _ n; simp [lookupB]
  | cons k r ih =>
      intro hnd n
      have hk_nr : ¬ k ∈ r := (List.nodup_cons.1 hnd).1
      have hr : r.Nodup := (List.nodup_cons.1 hnd).2
      cases hlk : lookupB g k with
      | none =>
          simp only [List.filterMap_cons, hlk, Option.map_none']
          rw [ih hr n]
          by_cases hn : n = k
          · subst hn
            simp [hk_nr, hlk]
          · simp only [List.mem_cons]
            by_cases hnr : n ∈ r
            · simp [hnr, hn]
            · simp [hnr, hn]
      | some t =>
          simp only [List.filterMap_cons, hlk, Option.map_some']
          by_cases hn : k = n
          · subst hn
            simp only [lookupB, if_pos rfl, List.mem_cons, true_or, if_true]
            exact hlk.symm
          · simp only [lookupB, if_neg hn]
            rw [ih hr n]
            simp only [List.mem_cons]
            by_cases hnr : n ∈ r
            · simp [hnr]
            · have : ¬ n = k := fun hc => hn hc.symm
              simp [hnr, this]

theorem lookupB_canonG (g : List (Nat × Term)) (n : Nat) :
    lookupB (canonG g) n = lookupB g n := by
  unfold canonG
  rw [lookupB_assemble g _ (nodup_canonNat _) n]
  by_cases hn : n ∈ canonNat (keysOf g)
  · rw [if_pos hn]
  · rw [if_neg hn]
    rw [mem_canonNat] at hn
    exact ((lookupB_eq_none g n).2 hn).symm

theorem keysOf_assemble (g : List (Nat × Term)) : ∀ (ks : List Nat),
    keysOf (ks.filterMap fun k => (lookupB g k).map fun t => (k, t)) =
      ks.filter fun k => (lookupB g k).isSome := by
  intro ks
  induction ks with
  | nil => rfl
  | cons k r ih =>
      cases hlk : lookupB g k with
      | none =>
          simp only [List.filterMap_cons, hlk, Option.map_none']
          simp only [List.filter_cons, hlk, Option.isSome_none,
            Bool.false_eq_true, if_false]
          exact ih
      | some t =>
          simp only [List.filterMap_cons, hlk, Option.map_some']
          simp only [List.filter_cons, hlk, Option.isSome_some, if_true,
            keysOf, List.map_cons]
          exact congrArg (List.cons k) ih

theorem nodup_keys_canonG (g : List (Nat × Term)) : (keysOf (canonG g)).Nodup := by
  unfold canonG
  rw [keysOf_assemble]
  exact (nodup_canonNat _).filter _

theorem reachThru_src (g : List (Nat × Term)) (stops starts : List Nat) :
    ∀ x ∈ reachThru g stops starts,
      x ∈ starts ∨ ∃ p, x ∈ succsOf g p := by
  have key : ∀ (fuel : Nat) (s : List Nat),
      (∀ x ∈ s, x ∈ starts ∨ ∃ p, x ∈ succsOf g p) →
      ∀ x ∈ iterFix (stepT g stops) fuel s,
        x ∈ starts ∨ ∃ p, x ∈ succsOf g p := by
    intro fuel
    induction fuel with
    | zero => intro s hs; exact hs
    | succ fuel ih =>
        intro s hs x hx
        simp only [iterFix] at hx
        by_cases hfix : stepT g stops s = s
        · rw [if_pos hfix] at hx
          exact hs x hx
        · rw [if_neg hfix] at hx
          refine ih _ ?_ x hx
          intro y hy
          unfold stepT at hy
          rw [mem_canonNat] at hy
          rcases List.mem_append.1 hy with hy | hy
          · exact hs y hy
          · rcases List.mem_flatMap.1 hy with ⟨p, _, hyp⟩
            exact Or.inr ⟨p, hyp⟩
  intro x hx
  unfold reachThru at hx
  refine key _ _ ?_ x hx
  intro y hy
  rw [mem_canonNat] at hy
  exact Or.inl hy

end Cfg

namespace Cfg

theorem countP_key_unique : ∀ (l : List (Nat × Term)), (keysOf l).Nodup →
    ∀ (b : Nat) (pb : (Nat × Term) → Bool),
    (∃ pr ∈ l, pb pr = true) → (∀ pr, pb pr = true → pr.1 = b) →
    l.countP pb = 1 := by
  intro l
  induction l with
  | nil =>
      intro _ b pb hex _
      rcases hex with ⟨pr, hpr, _⟩
      simp at hpr
  | cons q r ih =>
      intro hnd b pb hex hkey
      rcases List.nodup_cons.1 (show (q.1 :: keysOf r).Nodup from hnd)
        with ⟨hq_nr, hr_nd⟩
      cases hpq : pb q with
      | true =>
          rw [List.countP_cons_of_pos pb r hpq]
          have hzero : r.countP pb = 0 := by
            rw [List.countP_eq_zero]
            intro y hy hpy
            apply hq_nr
            rw [hkey q hpq, ← hkey y hpy]
            exact List.mem_map.2 ⟨y, hy, rfl⟩
          rw [hzero]
      | false =>
          rw [List.countP_cons_of_neg pb r (by simp [hpq])]
          apply ih hr_nd b pb ?_ hkey
          rcases hex with ⟨pr, hpr, hpb⟩
          rcases List.mem_cons.1 hpr with rfl | hpr
          · rw [hpq] at hpb
            cases hpb
          · exact ⟨pr, hpr, hpb⟩

end Cfg

/-- C8: a block that follows an unconditional return and has no incoming
edges is pruned before structuring: its statements are absent from the
final Region tree, and the pruning produces exactly one informational
diagnostic for it (and pruning diagnostics are never fatal). -/
theorem C8_prune_unreachable (c : Cfg.Graph) (b p : Nat)
    (hfollow : Cfg.lookupB c.blocks p = some Cfg.Term.ret)
    (hnext : b = p + 1)
    (hmem : b ∈ Cfg.keysOf c.blocks)
    (hne : b ≠ c.entry)
    (hnoin : ∀ pr ∈ c.blocks, ¬ b ∈ Cfg.Term.succs pr.2) :
    (¬ b ∈ Cfg.regionBlocks (Cfg.structuredOf c)) ∧
    (Cfg.pruneDiags c).countP
      (fun dg => decide (dg.blockId = b ∧ dg.sev = Cfg.Severity.info)) = 1 ∧
    ∀ dg ∈ Cfg.pruneDiags c, dg.sev = Cfg.Severity.info := by
  have hunreach : ¬ b ∈ Cfg.reachThru (Cfg.canonG c.blocks) [] [c.entry] := by
    intro hb
    rcases Cfg.reachThru_src _ _ _ b hb with hb | ⟨q, hq⟩
    · exact hne (List.mem_singleton.1 hb)
    · unfold Cfg.succsOf at hq
      cases hl : Cfg.lookupB (Cfg.canonG c.blocks) q with
      | none => rw [hl] at hq; simp at hq
      | some t =>
          rw [hl] at hq
          rw [Cfg.lookupB_canonG] at hl
          exact hnoin (q, t) (Cfg.lookupB_mem _ _ _ hl) hq
  refine ⟨?_, ?_, ?_⟩
  · intro hb
    have hkey := Cfg.regionBlocks_structFrom (Cfg.prunedOf c) _ _ _ _ b hb
    rcases List.mem_map.1 hkey with ⟨pr, hpr, rfl⟩
    have hf := List.mem_filter.1 hpr
    exact hunreach (by simpa using hf.2)
  · unfold Cfg.pruneDiags
    rw [List.countP_map]
    apply Cfg.countP_key_unique
    · exact ((List.filter_sublist _).map Prod.fst).nodup
        (Cfg.nodup_keys_canonG c.blocks)
    · rcases Cfg.lookupB_exists_of_mem_keys hmem with ⟨t, ht⟩
      have htc : Cfg.lookupB (Cfg.canonG c.blocks) b = some t := by
        rw [Cfg.lookupB_canonG]
        exact ht
      refine ⟨(b, t), List.mem_filter.2 ⟨Cfg.lookupB_mem _ _ _ htc, ?_⟩, ?_⟩
      · simpa using hunreach
      · simp
    · intro pr hpb
      simp only [Function.comp] at hpb
      have := of_decide_eq_true hpb
      exact this.1
  · intro dg hdg
    unfold Cfg.pruneDiags at hdg
    rcases List.mem_map.1 hdg with ⟨bb, _, rfl⟩
    rfl

/-- Witness for C8 at a concrete two-block graph (block 1 follows block 0's
return and has no incoming edges). -/
theorem C8_prune_unreachable_witness :
    (Cfg.lookupB [(0, Cfg.Term.ret), (1, Cfg.Term.ret)] 0 = some Cfg.Term.ret) ∧
    ((1 : Nat) ∈ Cfg.keysOf [(0, Cfg.Term.ret), (1, Cfg.Term.ret)]) ∧
    (¬ (1 : Nat) ∈ Cfg.regionBlocks
      (Cfg.structuredOf ⟨0, [(0, Cfg.Term.ret), (1, Cfg.Term.ret)]⟩)) ∧
    (Cfg.pruneDiags ⟨0, [(0, Cfg.Term.ret), (1, Cfg.Term.ret)]⟩).countP
      (fun dg => decide (dg.blockId = 1 ∧ dg.sev = Cfg.Severity.info)) = 1 :=
  ⟨by decide, by decide,
    (C8_prune_unreachable ⟨0, [(0, Cfg.Term.ret), (1, Cfg.Term.ret)]⟩ 1 0
      (by decide) rfl (by decide) (by decide) (by decide)).1,
    (C8_prune_unreachable ⟨0, [(0, Cfg.Term.ret), (1, Cfg.Term.ret)]⟩ 1 0
      (by decide) rfl (by decide) (by decide) (by decide)).2.1⟩

namespace Cfg

instance (g : List (Nat × Term)) : Decidable (NodupKeys g) := by
  unfold NodupKeys
  infer_instance

theorem lookupB_perm : ∀ {g₁ g₂ : List (Nat × Term)}, g₁.Perm g₂ →
    NodupKeys g₁ → ∀ n, lookupB g₁ n = lookupB g₂ n := by
  intro g₁ g₂ hp
  induction hp with
  | nil => intro _ _; rfl
  | cons p hpl ih =>
      intro hnd n
      have hnd' : NodupKeys _ :=
        (List.nodup_cons.1 (show (p.1 :: _).Nodup from hnd)).2
      simp only [lookupB]
      rw [ih hnd' n]
  | swap a b l =>
      intro hnd n
      rcases List.nodup_cons.1 (show (b.1 :: a.1 :: _).Nodup from hnd)
        with ⟨hb, hnd'⟩
      rcases List.nodup_cons.1 hnd' with ⟨_, _⟩
      simp only [lookupB]
      by_cases hbn : b.1 = n
      · by_cases han : a.1 = n
        · exact absurd (han.trans hbn.symm) (by
            intro hc
            exact hb (by rw [hc]; exact List.mem_cons_self _ _))
        · rw [if_pos hbn, if_neg han, if_pos hbn]
      · by_cases han : a.1 = n
        · rw [if_neg hbn, if_pos han, if_pos han]
        · rw [if_neg hbn, if_neg han, if_neg han, if_neg hbn]
  | trans h1 h2 ih1 ih2 =>
      intro hnd n
      have hndm := ((h1.map Prod.fst).nodup_iff).1 hnd
      rw [ih1 hnd n, ih2 hndm n]

theorem canonNat_perm {l₁ l₂ : List Nat} (hp : l₁.Perm l₂) :
    canonNat l₁ = canonNat l₂ := by
  unfold canonNat
  have s₁ : List.Sorted (fun a b : Nat => a ≤ b)
      (List.insertionSort (fun a b : Nat => a ≤ b) l₁.dedup) :=
    List.sorted_insertionSort _ _
  have s₂ : List.Sorted (fun a b : Nat => a ≤ b)
      (List.insertionSort (fun a b : Nat => a ≤ b) l₂.dedup) :=
    List.sorted_insertionSort _ _
  exact List.eq_of_perm_of_sorted
    (((List.perm_insertionSort _ _).trans hp.dedup).trans
      (List.perm_insertionSort _ _).symm) s₁ s₂

theorem canonG_perm {g₁ g₂ : List (Nat × Term)} (hnd : NodupKeys g₁)
    (hp : g₁.Perm g₂) : canonG g₁ = canonG g₂ := by
  unfold canonG
  rw [canonNat_perm (show (keysOf g₁).Perm (keysOf g₂) from hp.map Prod.fst)]
  apply List.filterMap_congr
  intro k _
  rw [lookupB_perm hp hnd k]

end Cfg

/-- C6: the Structurer is deterministic: two runs on the same abstract
graph (same entry, same block mapping, whatever order the blocks are
listed in) produce identical Region trees and identical diagnostics,
because the Structurer canonicalises its view of the graph by ascending
block identifier before structuring. -/
theorem C6_deterministic (e : Nat) (g₁ g₂ : List (Nat × Cfg.Term))
    (hnd : Cfg.NodupKeys g₁) (hperm : g₁.Perm g₂) :
    Cfg.structurer ⟨e, g₁⟩ = Cfg.structurer ⟨e, g₂⟩ := by
  have hc : Cfg.canonG g₁ = Cfg.canonG g₂ := Cfg.canonG_perm hnd hperm
  unfold Cfg.structurer Cfg.structuredOf Cfg.prunedOf Cfg.pruneDiags
  rw [hc]

/-- Witness for C6: the same two-block graph listed in two orders. -/
theorem C6_deterministic_witness :
    Cfg.NodupKeys [(0, Cfg.Term.goto 1), (1, Cfg.Term.ret)] ∧
    ([(0, Cfg.Term.goto 1), (1, Cfg.Term.ret)].Perm
      [(1, Cfg.Term.ret), (0, Cfg.Term.goto 1)]) ∧
    Cfg.structurer ⟨0, [(0, Cfg.Term.goto 1), (1, Cfg.Term.ret)]⟩ =
      Cfg.structurer ⟨0, [(1, Cfg.Term.ret), (0, Cfg.Term.goto 1)]⟩ :=
  ⟨by decide, by decide,
    C6_deterministic 0 _ _ (by decide) (by decide)⟩

namespace Cfg

/-- Modelled from the spec: the goto-free statement forms of a C function
body the Graph Builder consumes (spec section 4.1): plain expression
statements, sequencing, `if`/`else`, `while` (the `for` forms desugar to
it), `break`, `continue`, `return`, `switch` with fallthrough in source
order, and an unsupported construct (computed goto and the like) that must
fail with a typed diagnostic. -/
inductive CStmt where
  | expr
  | seq (a b : CStmt)
  | ite (t e : CStmt)
  | while (body : CStmt)
  | brk
  | cont
  | ret
  | switchS (cases : List CStmt)
  | unsupported
deriving Repr

/-- Builder state: the blocks emitted so far and the next fresh block
identifier (identifiers equal source appearance order). -/
structure BuildSt where
  blocks : List (Nat × Term)
  next : Nat
deriving DecidableEq, Repr

mutual

/-- Modelled from the spec: the Graph Builder (spec section 4.1).  Builds
the blocks realising one statement between a designated entry and exit
block, with `break`/`continue` bound to the innermost enclosing loop or
switch; an unsupported construct (or a stray `break`/`continue`) fails the
function's translation with a typed fatal diagnostic. -/
def buildStmt : CStmt → Nat → Nat → Option Nat → Option Nat → BuildSt →
    Except Diag BuildSt
  | .expr, en, ex, _, _, st =>
      .ok { st with blocks := st.blocks ++ [(en, .fallthrough ex)] }
  | .seq a b, en, ex, brkT, contT, st =>
      let m := st.next
      match buildStmt a en m brkT contT { st with next := st.next + 1 } with
      | .error d => .error d
      | .ok st' => buildStmt b m ex brkT contT st'
  | .ite t e, en, ex, brkT, contT, st =>
      let a := st.next
      let b := st.next + 1
      let st0 : BuildSt :=
        ⟨st.blocks ++ [(en, .branch a b)], st.next + 2⟩
      match buildStmt t a ex brkT contT st0 with
      | .error d => .error d
      | .ok st' => buildStmt e b ex brkT contT st'
  | .while body, en, ex, _, _, st =>
      let be := st.next
      let st0 : BuildSt :=
        ⟨st.blocks ++ [(en, .branch be ex)], st.next + 1⟩
      buildStmt body be en (some ex) (some en) st0
  | .brk, en, _, brkT, _, st =>
      match brkT with
      | some x => .ok { st with blocks := st.blocks ++ [(en, .goto x)] }
      | none => .error ⟨.fatal, en⟩
  | .cont, en, _, _, contT, st =>
      match contT with
      | some x => .ok { st with blocks := st.blocks ++ [(en, .goto x)] }
      | none => .error ⟨.fatal, en⟩
  | .ret, en, _, _, _, st =>
      .ok { st with blocks := st.blocks ++ [(en, .ret)] }
  | .unsupported, en, _, _, _, _ => .error ⟨.fatal, en⟩
  | .switchS cases, en, ex, _, contT, st =>
      let k := cases.length
      let entries := (List.range k).map fun i => st.next + i
      let st0 : BuildSt :=
        ⟨st.blocks ++ [(en, .switchT entries)], st.next + k⟩
      buildCases cases entries ex contT st0

/-- Build the cases of a switch in source order: each case's normal
completion falls through to the next case's entry; the last falls to the
switch exit; `break` binds to the switch exit. -/
def buildCases : List CStmt → List Nat → Nat → Option Nat → BuildSt →
    Except Diag BuildSt
  | [], _, _, _, st => .ok st
  | c :: cs, es, ex, contT, st =>
      match es with
      | [] => .ok st
      | e :: es' =>
          let nextEntry := match es' with | [] => ex | e' :: _ => e'
          match buildStmt c e nextEntry (some ex) contT st with
          | .error d => .error d
          | .ok st' => buildCases cs es' ex contT st'

end

/-- Modelled from the spec: build the whole function's graph — entry block
0, a synthetic exit block 1 holding the function's return, fresh blocks
from 2 up. -/
def buildCfg (f : CStmt) : Except Diag Graph :=
  match buildStmt f 0 1 none none ⟨[(1, Term.ret)], 2⟩ with
  | .error d => .error d
  | .ok st => .ok ⟨0, st.blocks⟩

/-- Modelled from the spec: translate one function: Graph Builder, then
Structurer (spec section 4.4). -/
def translateFunction (f : CStmt) : Except Diag (Region × List Diag) :=
  match buildCfg f with
  | .error d => .error d
  | .ok g => .ok (structurer g)

/-- The per-function outcome the Orchestrator records: a translated body
with its diagnostics, or an untranslated stub carrying the fatal
diagnostic. -/
inductive FuncResult where
  | translated (r : Region) (diags : List Diag)
  | stub (d : Diag)
deriving DecidableEq, Repr

/-- What the Orchestrator records for one function. -/
def perFunc (f : CStmt) : FuncResult :=
  match translateFunction f with
  | .ok (r, ds) => .translated r ds
  | .error d => .stub d

/-- Modelled from the spec: the Function Orchestrator's whole-program run
(spec section 4.4): process functions in order; on a fatal diagnostic
abandon only that function (emitting a stub) and continue with the next;
collect all diagnostics. -/
def runAll : List CStmt → List FuncResult × List Diag
  | [] => ([], [])
  | f :: rest =>
      let tail := runAll rest
      match translateFunction f with
      | .ok (r, ds) => (.translated r ds :: tail.1, ds ++ tail.2)
      | .error d => (.stub d :: tail.1, d :: tail.2)

end Cfg

/-- C7: a whole-program run tolerates per-function failures: the
Orchestrator produces one result for every input function, and each
function's result is exactly its own translation outcome (a fatal
diagnostic in any function yields a stub for that function only and never
aborts or alters the translation of the others). -/
theorem C7_no_whole_run_abort (fs : List Cfg.CStmt) :
    (Cfg.runAll fs).1.length = fs.length ∧
    ∀ i : Nat, (Cfg.runAll fs).1[i]? = (fs[i]?).map Cfg.perFunc := by
  induction fs with
  | nil => exact ⟨rfl, fun i => by simp [Cfg.runAll]⟩
  | cons f rest ih =>
      constructor
      · show (Cfg.runAll (f :: rest)).1.length = rest.length + 1
        unfold Cfg.runAll
        rcases htf : Cfg.translateFunction f with d | pr
        · simpa [htf] using ih.1
        · rcases pr with ⟨r, ds⟩
          simpa [htf] using ih.1
      · intro i
        unfold Cfg.runAll
        rcases htf : Cfg.translateFunction f with d | pr
        · cases i with
          | zero => simp [htf, Cfg.perFunc]
          | succ n => simpa [htf] using ih.2 n
        · rcases pr with ⟨r, ds⟩
          cases i with
          | zero => simp [htf, Cfg.perFunc]
          | succ n => simpa [htf] using ih.2 n

namespace Cfg

theorem sorted_canonNat (l : List Nat) :
    List.Sorted (fun a b : Nat => a ≤ b) (canonNat l) :=
  List.sorted_insertionSort _ _

theorem canon_unique {l₁ l₂ : List Nat}
    (s₁ : List.Sorted (fun a b : Nat => a ≤ b) l₁)
    (s₂ : List.Sorted (fun a b : Nat => a ≤ b) l₂)
    (n₁ : l₁.Nodup) (n₂ : l₂.Nodup)
    (h : ∀ x, x ∈ l₁ ↔ x ∈ l₂) : l₁ = l₂ :=
  List.eq_of_perm_of_sorted ((List.perm_ext_iff_of_nodup n₁ n₂).2 h) s₁ s₂

theorem canonNat_eq_of_mem_iff {l₁ l₂ : List Nat}
    (h : ∀ x, x ∈ l₁ ↔ x ∈ l₂) : canonNat l₁ = canonNat l₂ :=
  canon_unique (sorted_canonNat _) (sorted_canonNat _)
    (nodup_canonNat _) (nodup_canonNat _)
    (fun x => by rw [mem_canonNat, mem_canonNat]; exact h x)

/-- Abstract closure step over a per-node successor list. -/
def stepG (sf : Nat → List Nat) (s : List Nat) : List Nat :=
  canonNat (s ++ s.flatMap sf)

/-- Inductive reachability over a per-node successor list. -/
inductive ReachG (sf : Nat → List Nat) (start : Nat) : Nat → Prop where
  | refl : ReachG sf start start
  | step {b c : Nat} : ReachG sf start b → c ∈ sf b → ReachG sf start c

theorem mem_stepG {sf : Nat → List Nat} {s : List Nat} {x : Nat} :
    x ∈ stepG sf s ↔ x ∈ s ∨ ∃ n ∈ s, x ∈ sf n := by
  unfold stepG
  rw [mem_canonNat, List.mem_append, List.mem_flatMap]

theorem subset_stepG (sf : Nat → List Nat) (s : List Nat) :
    ∀ x ∈ s, x ∈ stepG sf s := fun x hx => mem_stepG.2 (Or.inl hx)

theorem sorted_stepG (sf : Nat → List Nat) (s : List Nat) :
    List.Sorted (fun a b : Nat => a ≤ b) (stepG sf s) := sorted_canonNat _

theorem nodup_stepG (sf : Nat → List Nat) (s : List Nat) :
    (stepG sf s).Nodup := nodup_canonNat _

theorem nodup_length_le {l₁ l₂ : List Nat} (hn : l₁.Nodup)
    (hs : ∀ x ∈ l₁, x ∈ l₂) : l₁.length ≤ l₂.length := by
  classical
  calc l₁.length = l₁.toFinset.card := (List.toFinset_card_of_nodup hn).symm
    _ ≤ l₂.toFinset.card := Finset.card_le_card (by
            intro x hx
            rw [List.mem_toFinset] at hx ⊢
            exact hs x hx)
    _ ≤ l₂.length := l₂.toFinset_card_le

theorem canon_eq_of_subset_of_length {l₁ l₂ : List Nat}
    (s₁ : List.Sorted (fun a b : Nat => a ≤ b) l₁)
    (s₂ : List.Sorted (fun a b : Nat => a ≤ b) l₂)
    (n₁ : l₁.Nodup) (n₂ : l₂.Nodup)
    (hsub : ∀ x ∈ l₁, x ∈ l₂) (hlen : l₂.length ≤ l₁.length) : l₁ = l₂ := by
  classical
  have hf : l₁.toFinset = l₂.toFinset := by
    apply Finset.eq_of_subset_of_card_le
    · intro x hx
      rw [List.mem_toFinset] at hx ⊢
      exact hsub x hx
    · rw [List.toFinset_card_of_nodup n₁, List.toFinset_card_of_nodup n₂]
      exact hlen
  apply canon_unique s₁ s₂ n₁ n₂
  intro x
  rw [← List.mem_toFinset, hf, List.mem_toFinset]

theorem iterFix_fix (sf : Nat → List Nat) (v : List Nat)
    (hv : ∀ n x, x ∈ sf n → x ∈ v) :
    ∀ (fuel : Nat) (s : List Nat),
      List.Sorted (fun a b : Nat => a ≤ b) s → s.Nodup →
      (∀ x ∈ s, x ∈ v) → v.length ≤ fuel + s.length →
      stepG sf (iterFix (stepG sf) fuel s) = iterFix (stepG sf) fuel s := by
  intro fuel
  induction fuel with
  | zero =>
      intro s hsort hnd hsv hlen
      simp only [iterFix]
      have hsub2 : ∀ x ∈ stepG sf s, x ∈ s := by
        intro x hx
        rcases mem_stepG.1 hx with hx | ⟨n, _, hxn⟩
        · exact hx
        · by_contra hxs
          have : (x :: s).length ≤ v.length := by
            apply nodup_length_le (List.nodup_cons.2 ⟨hxs, hnd⟩)
            intro y hy
            rcases List.mem_cons.1 hy with rfl | hy
            · exact hv n y hxn
            · exact hsv y hy
          simp only [List.length_cons] at this
          omega
      exact canon_eq_of_subset_of_length (sorted_stepG sf s) hsort
        (nodup_stepG sf s) hnd hsub2
        (nodup_length_le hnd (subset_stepG sf s))
  | succ fuel ih =>
      intro s hsort hnd hsv hlen
      simp only [iterFix]
      by_cases hfix : stepG sf s = s
      · rw [if_pos hfix]
        exact hfix
      · rw [if_neg hfix]
        have hsv' : ∀ x ∈ stepG sf s, x ∈ v := by
          intro x hx
          rcases mem_stepG.1 hx with hx | ⟨n, _, hxn⟩
          · exact hsv x hx
          · exact hv n x hxn
        apply ih _ (sorted_stepG sf s) (nodup_stepG sf s) hsv'
        have hlt : s.length < (stepG sf s).length := by
          rcases Nat.lt_or_ge s.length (stepG sf s).length with h | h
          · exact h
          · exact absurd (canon_eq_of_subset_of_length hsort (sorted_stepG sf s)
              hnd (nodup_stepG sf s) (subset_stepG sf s) h).symm hfix
        omega

end Cfg

namespace Cfg

theorem reachG_trans {sf : Nat → List Nat} {a b c : Nat}
    (h1 : ReachG sf a b) (h2 : ReachG sf b c) : ReachG sf a c := by
  induction h2 with
  | refl => exact h1
  | step _ hs ih => exact ReachG.step ih hs

theorem iterFix_sound (sf : Nat → List Nat) :
    ∀ (fuel : Nat) (s : List Nat) (x : Nat),
      x ∈ iterFix (stepG sf) fuel s → ∃ a ∈ s, ReachG sf a x := by
  intro fuel
  induction fuel with
  | zero => intro s x hx; exact ⟨x, hx, ReachG.refl⟩
  | succ fuel ih =>
      intro s x hx
      simp only [iterFix] at hx
      by_cases hfix : stepG sf s = s
      · rw [if_pos hfix] at hx
        exact ⟨x, hx, ReachG.refl⟩
      · rw [if_neg hfix] at hx
        rcases ih _ x hx with ⟨a, ha, hr⟩
        rcases mem_stepG.1 ha with ha | ⟨n, hn, han⟩
        · exact ⟨a, ha, hr⟩
        · exact ⟨n, hn, reachG_trans (ReachG.step ReachG.refl han) hr⟩

theorem subset_iterFix (sf : Nat → List Nat) :
    ∀ (fuel : Nat) (s : List Nat) (x : Nat),
      x ∈ s → x ∈ iterFix (stepG sf) fuel s := by
  intro fuel
  induction fuel with
  | zero => intro s x hx; exact hx
  | succ fuel ih =>
      intro s x hx
      simp only [iterFix]
      by_cases hfix : stepG sf s = s
      · rw [if_pos hfix]; exact hx
      · rw [if_neg hfix]
        exact ih _ x (subset_stepG sf s x hx)

theorem iterFix_complete (sf : Nat → List Nat) (fuel : Nat) (s : List Nat)
    (hfix : stepG sf (iterFix (stepG sf) fuel s) = iterFix (stepG sf) fuel s) :
    ∀ (a x : Nat), a ∈ s → ReachG sf a x → x ∈ iterFix (stepG sf) fuel s := by
  intro a x ha hr
  induction hr with
  | refl => exact subset_iterFix sf fuel s a ha
  | step _ hbs ih =>
      rw [← hfix]
      exact mem_stepG.2 (Or.inr ⟨_, ih, hbs⟩)

theorem sorted_iterFix (sf : Nat → List Nat) :
    ∀ (fuel : Nat) (s : List Nat),
      List.Sorted (fun a b : Nat => a ≤ b) s →
      List.Sorted (fun a b : Nat => a ≤ b) (iterFix (stepG sf) fuel s) := by
  intro fuel
  induction fuel with
  | zero => intro s hs; exact hs
  | succ fuel ih =>
      intro s hs
      simp only [iterFix]
      by_cases hfix : stepG sf s = s
      · rw [if_pos hfix]; exact hs
      · rw [if_neg hfix]; exact ih _ (sorted_stepG sf s)

theorem nodup_iterFix (sf : Nat → List Nat) :
    ∀ (fuel : Nat) (s : List Nat), s.Nodup →
      (iterFix (stepG sf) fuel s).Nodup := by
  intro fuel
  induction fuel with
  | zero => intro s hs; exact hs
  | succ fuel ih =>
      intro s hs
      simp only [iterFix]
      by_cases hfix : stepG sf s = s
      · rw [if_pos hfix]; exact hs
      · rw [if_neg hfix]; exact ih _ (nodup_stepG sf s)

/-- Per-node successor list for endpoint-inclusive reach: stop nodes are
never expanded. -/
def sfT (g : List (Nat × Term)) (stops : List Nat) (n : Nat) : List Nat :=
  if n ∈ stops then [] else succsOf g n

/-- Per-node successor list for merge reach: stop nodes are never
expanded and back edges are never walked. -/
def sfM (g : List (Nat × Term)) (stops : List Nat) (n : Nat) : List Nat :=
  if n ∈ stops then [] else succsF g n

/-- Per-node successor list for stop-excluded reach. -/
def sfR (g : List (Nat × Term)) (stops : List Nat) (n : Nat) : List Nat :=
  (succsOf g n).filter fun v => ¬ v ∈ stops

theorem stepT_eq (g : List (Nat × Term)) (stops : List Nat) :
    stepT g stops = stepG (sfT g stops) := by
  funext s
  apply canonNat_eq_of_mem_iff
  intro x
  rw [List.mem_append, List.mem_append, List.mem_flatMap, List.mem_flatMap]
  constructor
  · rintro (hx | ⟨n, hn, hxn⟩)
    · exact Or.inl hx
    · rcases List.mem_filter.1 hn with ⟨hn, hns⟩
      refine Or.inr ⟨n, hn, ?_⟩
      simp only [sfT, decide_eq_true_eq] at hns ⊢
      rw [if_neg (by simpa using hns)]
      exact hxn
  · rintro (hx | ⟨n, hn, hxn⟩)
    · exact Or.inl hx
    · simp only [sfT] at hxn
      by_cases hns : n ∈ stops
      · rw [if_pos hns] at hxn
        simp at hxn
      · rw [if_neg hns] at hxn
        exact Or.inr ⟨n, List.mem_filter.2 ⟨hn, by simpa using hns⟩, hxn⟩

theorem stepM_eq (g : List (Nat × Term)) (stops : List Nat) :
    stepM g stops = stepG (sfM g stops) := by
  funext s
  apply canonNat_eq_of_mem_iff
  intro x
  rw [List.mem_append, List.mem_append, List.mem_flatMap, List.mem_flatMap]
  constructor
  · rintro (hx | ⟨n, hn, hxn⟩)
    · exact Or.inl hx
    · rcases List.mem_filter.1 hn with ⟨hn, hns⟩
      refine Or.inr ⟨n, hn, ?_⟩
      simp only [sfM, decide_eq_true_eq] at hns ⊢
      rw [if_neg (by simpa using hns)]
      exact hxn
  · rintro (hx | ⟨n, hn, hxn⟩)
    · exact Or.inl hx
    · simp only [sfM] at hxn
      by_cases hns : n ∈ stops
      · rw [if_pos hns] at hxn
        simp at hxn
      · rw [if_neg hns] at hxn
        exact Or.inr ⟨n, List.mem_filter.2 ⟨hn, by simpa using hns⟩, hxn⟩

theorem stepR_eq (g : List (Nat × Term)) (stops : List Nat) :
    stepR g stops = stepG (sfR g stops) := by
  funext s
  apply canonNat_eq_of_mem_iff
  intro x
  rw [List.mem_append, List.mem_append, List.mem_flatMap]
  constructor
  · rintro (hx | hx)
    · exact Or.inl hx
    · rcases List.mem_filter.1 hx with ⟨hx, hxs⟩
      rcases List.mem_flatMap.1 hx with ⟨n, hn, hxn⟩
      exact Or.inr ⟨n, hn, List.mem_filter.2 ⟨hxn, hxs⟩⟩
  · rintro (hx | ⟨n, hn, hxn⟩)
    · exact Or.inl hx
    · rcases List.mem_filter.1 hxn with ⟨hxn, hxs⟩
      refine Or.inr (List.mem_filter.2 ⟨List.mem_flatMap.2 ⟨n, hn, hxn⟩, hxs⟩)

theorem mem_succsOf_nodesOf {g : List (Nat × Term)} {n x : Nat}
    (hx : x ∈ succsOf g n) : x ∈ nodesOf g := by
  unfold succsOf at hx
  cases hl : lookupB g n with
  | none => rw [hl] at hx; simp at hx
  | some t =>
      rw [hl] at hx
      rw [nodesOf, mem_canonNat, List.mem_append]
      exact Or.inr (List.mem_flatMap.2 ⟨(n, t), lookupB_mem _ _ _ hl, hx⟩)

end Cfg

namespace Cfg

theorem canonNat_append_length (s0 u : List Nat) :
    (canonNat (s0 ++ u)).length ≤ (canonNat s0).length + u.length := by
  have h : (canonNat (s0 ++ u)).length ≤ (canonNat s0 ++ u).length := by
    apply nodup_length_le (nodup_canonNat (s0 ++ u))
    intro x hx
    rw [mem_canonNat, List.mem_append] at hx
    rw [List.mem_append, mem_canonNat]
    exact hx
  simpa using h

theorem mem_iterFix_canon_iff (sf : Nat → List Nat) (u starts : List Nat)
    (hv : ∀ n x, x ∈ sf n → x ∈ u) (fuel : Nat)
    (hfuel : u.length ≤ fuel) (x : Nat) :
    x ∈ iterFix (stepG sf) fuel (canonNat starts) ↔
      ∃ a ∈ starts, ReachG sf a x := by
  constructor
  · intro h
    rcases iterFix_sound sf fuel _ x h with ⟨a, ha, hr⟩
    exact ⟨a, mem_canonNat.1 ha, hr⟩
  · rintro ⟨a, ha, hr⟩
    have hfix := iterFix_fix sf (canonNat (starts ++ u))
      (fun n y hy => by
        rw [mem_canonNat, List.mem_append]
        exact Or.inr (hv n y hy))
      fuel (canonNat starts) (sorted_canonNat _) (nodup_canonNat _)
      (fun y hy => by
        rw [mem_canonNat] at hy
        rw [mem_canonNat, List.mem_append]
        exact Or.inl hy)
      (by
        have := canonNat_append_length starts u
        omega)
    exact iterFix_complete sf fuel _ hfix a x (mem_canonNat.2 ha) hr

theorem mem_reachThru {g : List (Nat × Term)} {stops starts : List Nat}
    {x : Nat} :
    x ∈ reachThru g stops starts ↔ ∃ a ∈ starts, ReachG (sfT g stops) a x := by
  unfold reachThru
  rw [stepT_eq]
  apply mem_iterFix_canon_iff (sfT g stops) (nodesOf g) starts
  · intro n y hy
    unfold sfT at hy
    by_cases hns : n ∈ stops
    · rw [if_pos hns] at hy; simp at hy
    · rw [if_neg hns] at hy
      exact mem_succsOf_nodesOf hy
  · omega

theorem mem_reachM {g : List (Nat × Term)} {stops starts : List Nat}
    {x : Nat} :
    x ∈ reachM g stops starts ↔ ∃ a ∈ starts, ReachG (sfM g stops) a x := by
  unfold reachM
  rw [stepM_eq]
  apply mem_iterFix_canon_iff (sfM g stops) (nodesOf g) starts
  · intro n y hy
    unfold sfM at hy
    by_cases hns : n ∈ stops
    · rw [if_pos hns] at hy; simp at hy
    · rw [if_neg hns] at hy
      unfold succsF at hy
      exact mem_succsOf_nodesOf (List.mem_filter.1 hy).1
  · omega

theorem reachIter_eq_iterFix (g : List (Nat × Term)) (stops : List Nat) :
    ∀ (fuel : Nat) (s : List Nat),
      reachIter g stops fuel s = iterFix (stepR g stops) fuel s := by
  intro fuel
  induction fuel with
  | zero => intro s; rfl
  | succ fuel ih =>
      intro s
      simp only [reachIter, iterFix]
      by_cases hfix : stepR g stops s = s
      · rw [if_pos hfix, if_pos hfix]
      · rw [if_neg hfix, if_neg hfix]
        exact ih _

theorem mem_reachFrom {g : List (Nat × Term)} {stops starts : List Nat}
    {x : Nat} :
    x ∈ reachFrom g stops starts ↔
      ∃ a ∈ starts, ¬ a ∈ stops ∧ ReachG (sfR g stops) a x := by
  unfold reachFrom
  rw [reachIter_eq_iterFix, stepR_eq]
  rw [mem_iterFix_canon_iff (sfR g stops) (nodesOf g) _
    (fun n y hy => mem_succsOf_nodesOf (List.mem_filter.1 hy).1) _ (by omega) x]
  constructor
  · rintro ⟨a, ha, hr⟩
    rcases List.mem_filter.1 ha with ⟨ha, has⟩
    exact ⟨a, ha, by simpa using has, hr⟩
  · rintro ⟨a, ha, has, hr⟩
    exact ⟨a, List.mem_filter.2 ⟨ha, by simpa using has⟩, hr⟩

theorem reachThru_sorted (g : List (Nat × Term)) (stops starts : List Nat) :
    List.Sorted (fun a b : Nat => a ≤ b) (reachThru g stops starts) := by
  unfold reachThru
  rw [stepT_eq]
  exact sorted_iterFix _ _ _ (sorted_canonNat _)

theorem reachThru_nodup (g : List (Nat × Term)) (stops starts : List Nat) :
    (reachThru g stops starts).Nodup := by
  unfold reachThru
  rw [stepT_eq]
  exact nodup_iterFix _ _ _ (nodup_canonNat _)

theorem reachM_sorted (g : List (Nat × Term)) (stops starts : List Nat) :
    List.Sorted (fun a b : Nat => a ≤ b) (reachM g stops starts) := by
  unfold reachM
  rw [stepM_eq]
  exact sorted_iterFix _ _ _ (sorted_canonNat _)

theorem reachM_nodup (g : List (Nat × Term)) (stops starts : List Nat) :
    (reachM g stops starts).Nodup := by
  unfold reachM
  rw [stepM_eq]
  exact nodup_iterFix _ _ _ (nodup_canonNat _)

theorem reachFrom_sorted (g : List (Nat × Term)) (stops starts : List Nat) :
    List.Sorted (fun a b : Nat => a ≤ b) (reachFrom g stops starts) := by
  unfold reachFrom
  rw [reachIter_eq_iterFix, stepR_eq]
  exact sorted_iterFix _ _ _ (sorted_canonNat _)

theorem reachFrom_nodup (g : List (Nat × Term)) (stops starts : List Nat) :
    (reachFrom g stops starts).Nodup := by
  unfold reachFrom
  rw [reachIter_eq_iterFix, stepR_eq]
  exact nodup_iterFix _ _ _ (nodup_canonNat _)

end Cfg
